import Mathlib

/-!
Shallow embedding of the `raytracer_challenge` core (Rust) in Lean 4.

Floating-point numbers (`f64`) are modelled as real numbers `ℝ`; every
definition below is a direct translation of the corresponding Rust item,
with `f64` arithmetic replaced by exact real arithmetic.  Imperative loops
that accumulate into a zero-initialised output are translated either as
explicit component formulas (fixed small sizes) or as folds over index
lists, matching the loop structure of the source.
-/

namespace RayTracer

noncomputable section

/-- Fuzzy-equality tolerance: `utils.rs` compares `f64` values with
`(self - other).abs() < 0.00001`; the spec (§7) gives the same ≈ 1e-5
tolerance, and the missing `fuzzy_eq` module's `EPISILON` constant
(used by `Intersection::computed` for `over_point`) is the same value. -/
def EPSILON : ℝ := 0.00001

/-- Translation of `FuzzyEq for f64` (utils.rs): `(self - other).abs() < 0.00001`. -/
def fuzzyEq (a b : ℝ) : Prop := |a - b| < EPSILON

/-- Translation of `fuzzy_ne` (utils.rs): the negation of `fuzzy_eq`. -/
def fuzzyNe (a b : ℝ) : Prop := ¬ fuzzyEq a b

instance (a b : ℝ) : Decidable (fuzzyEq a b) := by
  unfold fuzzyEq; infer_instance

instance (a b : ℝ) : Decidable (fuzzyNe a b) := by
  unfold fuzzyNe; infer_instance

/-- Translation of `Vector` (tuples/vector.rs): four `f64` components. -/
structure Vector where
  x : ℝ
  y : ℝ
  z : ℝ
  w : ℝ

namespace Vector

/-- Translation of `Vector::new`: the `w` component is fixed to `0`. -/
def new (x y z : ℝ) : Vector := ⟨x, y, z, 0⟩

/-- Translation of `impl Add for Vector`. -/
def add (a b : Vector) : Vector := new (a.x + b.x) (a.y + b.y) (a.z + b.z)

/-- Translation of `impl Sub for Vector`. -/
def sub (a b : Vector) : Vector := new (a.x - b.x) (a.y - b.y) (a.z - b.z)

/-- Translation of `impl Mul<f64> for Vector` (componentwise scaling of x, y, z). -/
def smul (a : Vector) (s : ℝ) : Vector := new (a.x * s) (a.y * s) (a.z * s)

/-- Translation of `impl Neg for Vector`: `self * -1.0`. -/
def neg (a : Vector) : Vector := a.smul (-1)

/-- Translation of `impl Div<f64> for Vector`: `self * (1.0 / rhs)`. -/
def div (a : Vector) (s : ℝ) : Vector := a.smul (1 / s)

/-- Translation of `Vector::dot`: the sum over all four components. -/
def dot (a b : Vector) : ℝ := a.x * b.x + a.y * b.y + a.z * b.z + a.w * b.w

/-- Translation of `Vector::cross`. -/
def cross (a b : Vector) : Vector :=
  new (a.y * b.z - a.z * b.y) (a.z * b.x - a.x * b.z) (a.x * b.y - a.y * b.x)

/-- Translation of `Vector::magnitude`: `sqrt(x*x + y*y + z*z)`. -/
def magnitude (a : Vector) : ℝ := Real.sqrt (a.x * a.x + a.y * a.y + a.z * a.z)

/-- Translation of `Vector::normalize`: `*self / self.magnitude()`. -/
def normalize (a : Vector) : Vector := a.div a.magnitude

/-- Modelled from the spec: `Vector::reflect` is called by `Phong::lighting`
but its definition is not among the source files; spec §4.1 gives
`reflect(v, normal) = v - normal * 2 * dot(v, normal)`. -/
def reflect (v normal : Vector) : Vector := v.sub (normal.smul (2 * v.dot normal))

end Vector

/-- Translation of `Point` (point.rs): a 4-tuple whose `w` component is `1`. -/
structure Point where
  x : ℝ
  y : ℝ
  z : ℝ
  w : ℝ

namespace Point

/-- Translation of `Point::new`: the `w` component is fixed to `1`. -/
def new (x y z : ℝ) : Point := ⟨x, y, z, 1⟩

/-- Translation of `impl Sub for Point`: point minus point is a vector. -/
def sub (a b : Point) : Vector := Vector.new (a.x - b.x) (a.y - b.y) (a.z - b.z)

/-- Translation of `impl Add<Vector> for Point`: point plus vector is a point. -/
def addVec (a : Point) (v : Vector) : Point := new (a.x + v.x) (a.y + v.y) (a.z + v.z)

end Point

/-- Translation of `Color` (color.rs): three `f64` components. -/
structure Color where
  r : ℝ
  g : ℝ
  b : ℝ

namespace Color

/-- Translation of `Color::new`. -/
def new (r g b : ℝ) : Color := ⟨r, g, b⟩

/-- Translation of the componentwise tuple addition used for colors
(`ambient + diffuse + specular` in Phong::lighting). -/
def add (a b : Color) : Color := ⟨a.r + b.r, a.g + b.g, a.b + b.b⟩

/-- Translation of `impl Mul for Color`: elementwise (Hadamard) product. -/
def mul (a b : Color) : Color := new (a.r * b.r) (a.g * b.g) (a.b * b.b)

/-- Translation of `impl Mul<f64> for Color`: scalar scaling. -/
def smul (a : Color) (s : ℝ) : Color := new (a.r * s) (a.g * s) (a.b * s)

end Color

/-- Translation of `Matrix<T, N>` (matrix.rs) at `T = f64`: an `N×N` grid of
reals, represented as a function of the two indices. -/
abbrev SqMatrix (n : ℕ) := Fin n → Fin n → ℝ

/-- Translation of `Matrix<4>`, the size used for all scene transforms. -/
abbrev Matrix4 := SqMatrix 4

/-- Translation of `Matrix<3>`. -/
abbrev Matrix3 := SqMatrix 3

/-- Translation of `Matrix<2>`. -/
abbrev Matrix2 := SqMatrix 2

/-- Translation of `impl Default for Matrix`: the all-zero matrix
(`[[T::zero(); N]; N]`). -/
def defaultM (n : ℕ) : SqMatrix n := fun _ _ => 0

/-- Translation of `Matrix::identity`: the zero matrix with ones written on
the diagonal. -/
def identityM (n : ℕ) : SqMatrix n := fun i j => if i = j then 1 else 0

/-- Translation of `Matrix::transpose`: `res[i][j] = self[j][i]`. -/
def transposeM {n : ℕ} (m : SqMatrix n) : SqMatrix n := fun i j => m j i

/-- Translation of `impl Mul for Matrix`: entry `(i, j)` of the product
accumulates `self[i][k] * rhs[k][j]` over `k` (the inner loop's sum). -/
def matMul {n : ℕ} (a b : SqMatrix n) : SqMatrix n := fun i j => ∑ k, a i k * b k j

/-- Translation of the single-entry write `res[i][j] = v` performed through
`IndexMut` on a matrix. -/
def updateM {n : ℕ} (m : SqMatrix n) (i j : Fin n) (v : ℝ) : SqMatrix n :=
  fun a b => if a = i ∧ b = j then v else m a b

/-- Translation of `impl Mul<T> for Matrix<T, N>` (matrix.rs lines 81-96):
`res` starts as `Default::default()` (the zero matrix) and the loop body is
`res[i][j] = rhs * res[i][j]` — reading from `res`, not from `self`. -/
def matMulScalar {n : ℕ} (_m : SqMatrix n) (s : ℝ) : SqMatrix n :=
  (List.finRange n).foldl
    (fun res i => (List.finRange n).foldl (fun r j => updateM r i j (s * r i j)) res)
    (defaultM n)

/-- Translation of `FuzzyEq for Matrix`: every entry fuzzy-equal. -/
def fuzzyEqM {n : ℕ} (a b : SqMatrix n) : Prop := ∀ i j, fuzzyEq (a i j) (b i j)

/-- Translation of the 2×2 `Matrix::determinant`:
`self[0][0] * self[1][1] - self[1][0] * self[0][1]`. -/
def det2 (m : Matrix2) : ℝ := m 0 0 * m 1 1 - m 1 0 * m 0 1

/-- Index arithmetic of the `submatrix` copy loop (submatrix_ops! 4 3):
target row/column `i` of the submatrix reads source index `i` when
`i < remove`, and `i + 1` once the removed index has been skipped. -/
def skip4 (remove : Fin 4) (i : Fin 3) : Fin 4 :=
  if i.val < remove.val then ⟨i.val, by omega⟩ else ⟨i.val + 1, by omega⟩

/-- Index arithmetic of the `submatrix` copy loop (submatrix_ops! 3 2). -/
def skip3 (remove : Fin 3) (i : Fin 2) : Fin 3 :=
  if i.val < remove.val then ⟨i.val, by omega⟩ else ⟨i.val + 1, by omega⟩

/-- Translation of the 4×4 `Matrix::submatrix`: drop the given row and
column, preserving the relative order of the remaining entries. -/
def submatrix4 (m : Matrix4) (removeRow removeCol : Fin 4) : Matrix3 :=
  fun i j => m (skip4 removeRow i) (skip4 removeCol j)

/-- Translation of the 3×3 `Matrix::submatrix`. -/
def submatrix3 (m : Matrix3) (removeRow removeCol : Fin 3) : Matrix2 :=
  fun i j => m (skip3 removeRow i) (skip3 removeCol j)

/-- Translation of the 3×3 `Matrix::minor`: determinant of the submatrix. -/
def minor3 (m : Matrix3) (removeRow removeCol : Fin 3) : ℝ :=
  det2 (submatrix3 m removeRow removeCol)

/-- Translation of the 3×3 `Matrix::cofactor`: the minor, negated when
`remove_row + remove_col` is odd. -/
def cofactor3 (m : Matrix3) (removeRow removeCol : Fin 3) : ℝ :=
  if (removeRow.val + removeCol.val) % 2 = 0 then minor3 m removeRow removeCol
  else -(minor3 m removeRow removeCol)

/-- Translation of the 3×3 `Matrix::determinant`: cofactor expansion along
the first row, `Σᵢ self[0][i] * cofactor(0, i)`. -/
def det3 (m : Matrix3) : ℝ := ∑ i, m 0 i * cofactor3 m 0 i

/-- Translation of the 4×4 `Matrix::minor`. -/
def minor4 (m : Matrix4) (removeRow removeCol : Fin 4) : ℝ :=
  det3 (submatrix4 m removeRow removeCol)

/-- Translation of the 4×4 `Matrix::cofactor`. -/
def cofactor4 (m : Matrix4) (removeRow removeCol : Fin 4) : ℝ :=
  if (removeRow.val + removeCol.val) % 2 = 0 then minor4 m removeRow removeCol
  else -(minor4 m removeRow removeCol)

/-- Translation of the 4×4 `Matrix::determinant`. -/
def det4 (m : Matrix4) : ℝ := ∑ i, m 0 i * cofactor4 m 0 i

/-- Translation of the 4×4 `Matrix::is_invertible`:
`self.determinant().fuzzy_ne(T::zero())`. -/
def isInvertible4 (m : Matrix4) : Prop := fuzzyNe (det4 m) 0

/-- Translation of the 3×3 `Matrix::is_invertible`. -/
def isInvertible3 (m : Matrix3) : Prop := fuzzyNe (det3 m) 0

instance (m : Matrix4) : Decidable (isInvertible4 m) := by
  unfold isInvertible4; infer_instance

instance (m : Matrix3) : Decidable (isInvertible3 m) := by
  unfold isInvertible3; infer_instance

/-- Translation of the loop body of the 4×4 `Matrix::inverse`:
`res[j][i] = self.cofactor(i, j) / det` (transpose as you go).  This is the
value the source computes once the invertibility check has passed. -/
def inverse4 (m : Matrix4) : Matrix4 := fun j i => cofactor4 m i j / det4 m

/-- Translation of the 3×3 `Matrix::inverse` loop body. -/
def inverse3 (m : Matrix3) : Matrix3 := fun j i => cofactor3 m i j / det3 m

/-- Translation of the full 4×4 `Matrix::inverse` including its failure
behaviour: the source panics (`panic!("matrix is not invertible")`) when
`is_invertible` is false; the panic is modelled as `none`. -/
def inverseRes4 (m : Matrix4) : Option Matrix4 :=
  if isInvertible4 m then some (inverse4 m) else none

/-- Translation of the full 3×3 `Matrix::inverse` including the panic. -/
def inverseRes3 (m : Matrix3) : Option Matrix3 :=
  if isInvertible3 m then some (inverse3 m) else none

/-- Translation of `impl Mul<Tuple<T, U, 4>> for Matrix<T, 4>` applied to a
`Point`: `res[i] = Σⱼ self[i][j] * rhs[j]`, with the four accumulation
loops written out. -/
def mulPoint (m : Matrix4) (p : Point) : Point :=
  ⟨m 0 0 * p.x + m 0 1 * p.y + m 0 2 * p.z + m 0 3 * p.w,
   m 1 0 * p.x + m 1 1 * p.y + m 1 2 * p.z + m 1 3 * p.w,
   m 2 0 * p.x + m 2 1 * p.y + m 2 2 * p.z + m 2 3 * p.w,
   m 3 0 * p.x + m 3 1 * p.y + m 3 2 * p.z + m 3 3 * p.w⟩

/-- Translation of `impl Mul<Tuple<T, U, 4>> for Matrix<T, 4>` applied to a
`Vector`. -/
def mulVec (m : Matrix4) (v : Vector) : Vector :=
  ⟨m 0 0 * v.x + m 0 1 * v.y + m 0 2 * v.z + m 0 3 * v.w,
   m 1 0 * v.x + m 1 1 * v.y + m 1 2 * v.z + m 1 3 * v.w,
   m 2 0 * v.x + m 2 1 * v.y + m 2 2 * v.z + m 2 3 * v.w,
   m 3 0 * v.x + m 3 1 * v.y + m 3 2 * v.z + m 3 3 * v.w⟩

/-- Translation of `Ray` (ray.rs): an origin point and a direction vector. -/
structure Ray where
  origin : Point
  direction : Vector

namespace Ray

/-- Translation of `Ray::position`: `origin + direction * t`. -/
def position (r : Ray) (t : ℝ) : Point := r.origin.addVec (r.direction.smul t)

/-- Translation of `Ray::transform`: apply the matrix to both origin and
direction. -/
def transform (r : Ray) (m : Matrix4) : Ray := ⟨mulPoint m r.origin, mulVec m r.direction⟩

end Ray

/-- Translation of `ShadowState` (material.rs). -/
inductive ShadowState where
  | shadow : ShadowState
  | clear : ShadowState

/-- Translation of `Phong` (material.rs): colour and the four reflectance
coefficients. -/
structure Phong where
  color : Color
  ambient : ℝ
  diffuse : ℝ
  specular : ℝ
  shininess : ℝ

/-- Translation of `Material` (material.rs): a closed enum whose only
variant wraps `Phong`. -/
inductive Material where
  | phong : Phong → Material

/-- Translation of `PointLight` (light.rs). -/
structure PointLight where
  position : Point
  intensity : Color

/-- Translation of `Phong::lighting` (material.rs lines 72-116).  The
source assigns `diffuse_light`/`specular_light` once in each branch and
returns `ambient_light + diffuse_light + specular_light`; the branch
assignments are modelled as a pair.  Note the Rust precedence in line 103:
`-light_vector.reflect(normal_vector)` parses as
`-(light_vector.reflect(normal_vector))`. -/
def Phong.lighting (m : Phong) (light : PointLight) (position : Point)
    (eyeVector normalVector : Vector) (shadowState : ShadowState) : Color :=
  let effectiveColor := m.color.mul light.intensity
  let lightVector := (light.position.sub position).normalize
  let ambientLight := effectiveColor.smul m.ambient
  match shadowState with
  | ShadowState.shadow => ambientLight
  | ShadowState.clear =>
    let lightDotNormal := lightVector.dot normalVector
    let ds : Color × Color :=
      if lightDotNormal < 0 then
        (Color.new 0 0 0, Color.new 0 0 0)
      else
        let diffuseLight := (effectiveColor.smul m.diffuse).smul lightDotNormal
        let reflectVector := (lightVector.reflect normalVector).neg
        let reflectDotEye := reflectVector.dot eyeVector
        if reflectDotEye ≤ 0 then
          (diffuseLight, Color.new 0 0 0)
        else
          (diffuseLight, (light.intensity.smul m.specular).smul (reflectDotEye ^ m.shininess))
    (ambientLight.add ds.1).add ds.2

/-- Translation of `Illuminated for Material`: dispatch to the Phong
variant. -/
def Material.lighting (mat : Material) (light : PointLight) (position : Point)
    (eyeVector normalVector : Vector) (shadowState : ShadowState) : Color :=
  match mat with
  | Material.phong p => p.lighting light position eyeVector normalVector shadowState

/-- Translation of `Sphere` (sphere.rs): an affine transform and a
material; geometrically always the unit sphere at the origin in object
space. -/
structure Sphere where
  transform : Matrix4
  material : Material

/-- Translation of `Sphere::default`: identity transform. -/
def Sphere.default (mat : Material) : Sphere := ⟨identityM 4, mat⟩

/-- Translation of `Body` (body.rs): the closed enum of shape kinds. -/
inductive Body where
  | sphere : Sphere → Body

/-- Translation of `Body::material`. -/
def Body.material (b : Body) : Material :=
  match b with
  | Body.sphere s => s.material

/-- Translation of `Intersection` (intersection.rs): the hit parameter `t`,
the originating ray, and the body hit. -/
structure Intersection where
  t : ℝ
  ray : Ray
  body : Body

/-- Translation of `Intersections` (intersection.rs): a collection of
intersections (the backing `Vec`). -/
structure Intersections where
  intersections : List Intersection

/-- Translation of the comparator in `From<Vec<Intersection>>`:
`a.t.partial_cmp(&b.t)` used ascending. -/
def tLe (a b : Intersection) : Bool := decide (a.t ≤ b.t)

/-- Translation of `From<Vec<Intersection>> for Intersections`
(intersection.rs lines 79-84): sort the input by `t` ascending, then wrap. -/
def Intersections.fromList (l : List Intersection) : Intersections :=
  ⟨l.mergeSort tLe⟩

/-- Translation of `Intersections::hit` (intersection.rs lines 61-68):
return the first entry whose `t` is strictly positive, else none. -/
def Intersections.hit (xs : Intersections) : Option Intersection :=
  xs.intersections.find? (fun i => decide (i.t > 0))

/-- Translation of `Intersections::len`. -/
def Intersections.len (xs : Intersections) : ℕ := xs.intersections.length

/-- Translation of the element assignment `xs[index] = value` that the
`IndexMut` implementation (intersection.rs lines 94-98) makes possible:
the stored list with the entry at `index` replaced. -/
def Intersections.set (xs : Intersections) (index : ℕ) (v : Intersection) : Intersections :=
  ⟨xs.intersections.set index v⟩

/-- Translation of `Sphere::intersect` (sphere.rs lines 45-61): transform
the ray into object space by the inverse transform, solve the unit-sphere
quadratic, and return no intersections when the discriminant is negative,
otherwise the two roots (then sorted by the `From<Vec<_>>` conversion).
Per intersection.rs the constructed `Intersection` records the incoming
ray and the body alongside `t`. -/
def Sphere.intersect (s : Sphere) (r : Ray) : Intersections :=
  let objectSpaceRay := r.transform (inverse4 s.transform)
  let sphereToRay := objectSpaceRay.origin.sub (Point.new 0 0 0)
  let a := objectSpaceRay.direction.dot objectSpaceRay.direction
  let b := 2 * objectSpaceRay.direction.dot sphereToRay
  let c := sphereToRay.dot sphereToRay - 1
  let descriminant := b * b - 4 * a * c
  if descriminant < 0 then
    Intersections.fromList []
  else
    Intersections.fromList
      [⟨(-b - Real.sqrt descriminant) / (2 * a), r, Body.sphere s⟩,
       ⟨(-b + Real.sqrt descriminant) / (2 * a), r, Body.sphere s⟩]

/-- Translation of `Sphere::normal_at` (sphere.rs lines 63-69). -/
def Sphere.normalAt (s : Sphere) (p : Point) : Vector :=
  let tInv := inverse4 s.transform
  let objectPoint := mulPoint tInv p
  let objectNormal := (objectPoint.sub (Point.new 0 0 0)).normalize
  let worldNormal := mulVec (transposeM tInv) objectNormal
  (Vector.new worldNormal.x worldNormal.y worldNormal.z).normalize

/-- Translation of `Intersectable for Body`. -/
def Body.intersect (b : Body) (r : Ray) : Intersections :=
  match b with
  | Body.sphere s => s.intersect r

/-- Translation of `Normal for Body`. -/
def Body.normalAt (b : Body) (p : Point) : Vector :=
  match b with
  | Body.sphere s => s.normalAt p

/-- Translation of `Orientation` (computed_intersection.rs). -/
inductive Orientation where
  | inside : Orientation
  | outside : Orientation

/-- Translation of `ComputedIntersection` (computed_intersection.rs),
without the back-reference to the borrowed `Intersection`. -/
structure ComputedIntersection where
  position : Point
  overPoint : Point
  normal : Vector
  eye : Vector
  orientation : Orientation

/-- Translation of `Intersection::computed` (intersection.rs lines 32-47):
position on the ray at `t`, eye vector as the negated ray direction, the
body's normal flipped to face the eye when the hit is from inside, and
`over_point = position + normal * EPISILON`. -/
def Intersection.computed (i : Intersection) : ComputedIntersection :=
  let position := i.ray.position i.t
  let normal := i.body.normalAt position
  let eye := i.ray.direction.neg
  let flipped : Vector × Orientation :=
    if normal.dot eye < 0 then (normal.neg, Orientation.inside)
    else (normal, Orientation.outside)
  let overPoint := position.addVec (flipped.1.smul EPSILON)
  ⟨position, overPoint, flipped.1, eye, flipped.2⟩

/-- Translation of `World` (world.rs): bodies and lights. -/
structure World where
  bodies : List Body
  lights : List PointLight

/-- Translation of `World::intersect` (world.rs lines 21-28): flat-map
every body's intersections into one vector, then convert (which re-sorts). -/
def World.intersect (w : World) (r : Ray) : Intersections :=
  Intersections.fromList (w.bodies.flatMap (fun b => (b.intersect r).intersections))

/-- Translation of `World::color_at` (world.rs lines 30-41): on a hit,
shade with the hit body's material and `self.lights[0]`; otherwise return
black.  The out-of-bounds panic of `self.lights[0]` on an empty lights
list is modelled as `none`.  Per spec §4.7 the shadow state passed to
`lighting` is always `Clear` (no shadow testing in this core). -/
def World.colorAt (w : World) (r : Ray) : Option Color :=
  match (w.intersect r).hit with
  | none => some (Color.new 0 0 0)
  | some hit =>
    match w.lights with
    | [] => none
    | light :: _ =>
      let c := hit.computed
      some (hit.body.material.lighting light c.position c.eye c.normal ShadowState.clear)

/-! Concrete scene values used by the witness theorems, mirroring the
fixtures of the source's unit tests. -/

/-- Translation of `Phong::default` (material.rs lines 118-128). -/
def phong0 : Phong := ⟨Color.new 1 1 1, 0.1, 0.9, 0.9, 200⟩

/-- Translation of the default sphere used throughout the source's tests. -/
def sphere0 : Sphere := Sphere.default (Material.phong phong0)

/-- The default sphere wrapped as a `Body`. -/
def body0 : Body := Body.sphere sphere0

/-- The test ray `Ray::new(Point::new(0, 0, -5), Vector::new(0, 0, 1))`. -/
def ray0 : Ray := ⟨Point.new 0 0 (-5), Vector.new 0 0 1⟩

/-- The test light `PointLight::new(Point::new(0, 0, -10), Color::new(1, 1, 1))`. -/
def light0 : PointLight := ⟨Point.new 0 0 (-10), Color.new 1 1 1⟩

/-- The surface point `Point::new(0, 0, 0)` of the lighting tests. -/
def pos0 : Point := Point.new 0 0 0

/-- The eye vector `Vector::new(0, 0, -1)` of the lighting tests. -/
def eye0 : Vector := Vector.new 0 0 (-1)

/-- The normal vector `Vector::new(0, 0, -1)` of the lighting tests. -/
def nrm0 : Vector := Vector.new 0 0 (-1)

/-- A world with no bodies and one light. -/
def worldOneLight : World := ⟨[], [light0]⟩

/-- A world with the default sphere and an empty lights list. -/
def worldNoLights : World := ⟨[body0], []⟩

/-! Helper lemmas. -/

lemma fv40 : ((0 : Fin 4) : ℕ) = 0 := rfl

lemma fv41 : ((1 : Fin 4) : ℕ) = 1 := rfl

lemma fv42 : ((2 : Fin 4) : ℕ) = 2 := rfl

lemma fv43 : ((3 : Fin 4) : ℕ) = 3 := rfl

lemma fv30 : ((0 : Fin 3) : ℕ) = 0 := rfl

lemma fv31 : ((1 : Fin 3) : ℕ) = 1 := rfl

lemma fv32 : ((2 : Fin 3) : ℕ) = 2 := rfl

lemma fv20 : ((0 : Fin 2) : ℕ) = 0 := rfl

lemma fv21 : ((1 : Fin 2) : ℕ) = 1 := rfl

lemma epsilon_pos : (0 : ℝ) < EPSILON := by
  norm_num [EPSILON]

lemma fuzzyEq_refl (a : ℝ) : fuzzyEq a a := by
  simpa [fuzzyEq] using epsilon_pos

lemma fuzzyEqM_refl {n : ℕ} (m : SqMatrix n) : fuzzyEqM m m :=
  fun _ _ => fuzzyEq_refl _

/-- An entry-preserving description of `matMulScalar`: every fold step
rewrites an entry of the zero-initialised accumulator with `s * 0`. -/
lemma matMulScalar_entry {n : ℕ} (m : SqMatrix n) (s : ℝ) (i j : Fin n) :
    matMulScalar m s i j = 0 := by
  have step : ∀ (l : List (Fin n)) (a : Fin n) (res : SqMatrix n),
      (∀ x y, res x y = 0) → ∀ x y,
        (l.foldl (fun r j => updateM r a j (s * r a j)) res) x y = 0 := by
    intro l
    induction l with
    | nil => intro a res h x y; exact h x y
    | cons b t ih =>
      intro a res h x y
      refine ih a _ ?_ x y
      intro x y
      unfold updateM
      by_cases hxy : x = a ∧ y = b
      · simp [hxy, h]
      · simp [hxy, h x y]
  have outer : ∀ (l : List (Fin n)) (res : SqMatrix n),
      (∀ x y, res x y = 0) → ∀ x y,
        (l.foldl (fun res a => (List.finRange n).foldl
          (fun r j => updateM r a j (s * r a j)) res) res) x y = 0 := by
    intro l
    induction l with
    | nil => intro res h x y; exact h x y
    | cons b t ih =>
      intro res h x y
      exact ih _ (step (List.finRange n) b res h) x y
  exact outer (List.finRange n) (defaultM n) (fun _ _ => rfl) i j

/-! The claims and their proofs. -/

/-- C9: for every `N×N` matrix `M` and scalar `s`, the matrix-by-scalar
product `M * s` is the all-zero matrix, independent of both `M` and `s`,
because each output entry is computed from the zero-initialised result
matrix rather than from `M`. -/
theorem matMulScalar_always_zero (n : ℕ) (m : SqMatrix n) (s : ℝ) :
    matMulScalar m s = defaultM n ∧
      ∀ (m2 : SqMatrix n) (s2 : ℝ), matMulScalar m s = matMulScalar m2 s2 := by
  have h : ∀ (m : SqMatrix n) (s : ℝ), matMulScalar m s = defaultM n := by
    intro m s
    funext i j
    exact matMulScalar_entry m s i j
  exact ⟨h m s, fun m2 s2 => (h m s).trans (h m2 s2).symm⟩

/-- On a list sorted ascending by `t`, `find?` with the strict-positivity
test returns a member that is positive and minimal among the positive
entries. -/
lemma find_pos_min :
    ∀ l : List Intersection, l.Pairwise (fun a b => a.t ≤ b.t) →
      ∀ i, l.find? (fun x => decide (x.t > 0)) = some i →
        i ∈ l ∧ 0 < i.t ∧ ∀ j ∈ l, 0 < j.t → i.t ≤ j.t := by
  intro l
  induction l with
  | nil => intro _ i h; simp at h
  | cons a t ih =>
    intro hs i h
    rcases List.pairwise_cons.mp hs with ⟨ha, ht⟩
    by_cases hpos : a.t > 0
    · rw [List.find?_cons_of_pos _ (by simpa using hpos)] at h
      obtain rfl : a = i := by simpa using h
      refine ⟨List.mem_cons_self _ _, hpos, ?_⟩
      intro j hj _
      rcases List.mem_cons.mp hj with rfl | hj
      · exact le_refl _
      · exact ha j hj
    · rw [List.find?_cons_of_neg _ (by simpa using hpos)] at h
      obtain ⟨hmem, hipos, hmin⟩ := ih ht i h
      refine ⟨List.mem_cons_of_mem _ hmem, hipos, ?_⟩
      intro j hj hjpos
      rcases List.mem_cons.mp hj with rfl | hj
      · exact absurd hjpos hpos
      · exact hmin j hj hjpos

/-- C2: on a sorted collection, `hit()` returns the first entry (in
ascending-`t` order) whose `t` is strictly positive — an entry with `t`
exactly `0` is treated as a non-hit — and returns `none` exactly when the
collection is empty or contains no entry with `t > 0`. -/
theorem hit_first_strictly_positive (xs : Intersections)
    (hs : xs.intersections.Pairwise (fun a b => a.t ≤ b.t)) :
    (xs.hit = none ↔ ∀ i ∈ xs.intersections, ¬ 0 < i.t) ∧
      ∀ i, xs.hit = some i →
        i ∈ xs.intersections ∧ 0 < i.t ∧
          ∀ j ∈ xs.intersections, 0 < j.t → i.t ≤ j.t := by
  constructor
  · unfold Intersections.hit
    rw [List.find?_eq_none]
    constructor
    · intro h i hi hpos
      exact h i hi (by simpa using hpos)
    · intro h i hi
      simpa using h i hi
  · exact fun i h => find_pos_min xs.intersections hs i h

/-- Witness for C2 at the two-entry collection with `t = 0` and `t = 1`:
the collection is sorted, and `hit` returns the `t = 1` entry (the `t = 0`
entry is a non-hit). -/
theorem hit_first_strictly_positive_witness :
    (Intersections.mk [⟨0, ray0, body0⟩, ⟨1, ray0, body0⟩]).intersections.Pairwise
        (fun a b => a.t ≤ b.t) ∧
      ∀ i, (Intersections.mk [⟨0, ray0, body0⟩, ⟨1, ray0, body0⟩]).hit = some i →
        i ∈ (Intersections.mk [⟨0, ray0, body0⟩, ⟨1, ray0, body0⟩]).intersections ∧
          0 < i.t ∧
          ∀ j ∈ (Intersections.mk [⟨0, ray0, body0⟩, ⟨1, ray0, body0⟩]).intersections,
            0 < j.t → i.t ≤ j.t := by
  have hs : (Intersections.mk [⟨0, ray0, body0⟩, ⟨1, ray0, body0⟩]).intersections.Pairwise
      (fun a b => a.t ≤ b.t) := by
    simp [List.pairwise_cons]
  exact ⟨hs, (hit_first_strictly_positive _ hs).2⟩

/-- The squared length under the square root in `Vector::magnitude` is
nonnegative. -/
lemma sumsq_nonneg (v : Vector) : 0 ≤ v.x * v.x + v.y * v.y + v.z * v.z := by
  have hx := mul_self_nonneg v.x
  have hy := mul_self_nonneg v.y
  have hz := mul_self_nonneg v.z
  linarith

/-- A vector of nonzero magnitude normalizes to magnitude exactly one. -/
lemma normalize_magnitude (v : Vector) (h : v.magnitude ≠ 0) :
    v.normalize.magnitude = 1 := by
  have hS : 0 ≤ v.x * v.x + v.y * v.y + v.z * v.z := sumsq_nonneg v
  have hm : 0 < v.magnitude := by
    rcases lt_or_eq_of_le (Real.sqrt_nonneg (v.x * v.x + v.y * v.y + v.z * v.z)) with hlt | heq
    · exact hlt
    · exact absurd heq.symm h
  have hmm : v.magnitude * v.magnitude = v.x * v.x + v.y * v.y + v.z * v.z := by
    simpa [Vector.magnitude] using Real.mul_self_sqrt hS
  have hinner :
      v.x * (1 / v.magnitude) * (v.x * (1 / v.magnitude)) +
        v.y * (1 / v.magnitude) * (v.y * (1 / v.magnitude)) +
        v.z * (1 / v.magnitude) * (v.z * (1 / v.magnitude)) = 1 := by
    have hne : v.magnitude ≠ 0 := ne_of_gt hm
    field_simp
    linarith [hmm]
  have hx : v.normalize.magnitude =
      Real.sqrt (v.x * (1 / v.magnitude) * (v.x * (1 / v.magnitude)) +
        v.y * (1 / v.magnitude) * (v.y * (1 / v.magnitude)) +
        v.z * (1 / v.magnitude) * (v.z * (1 / v.magnitude))) := rfl
  rw [hx, hinner, Real.sqrt_one]

/-- C8: `normalize(v)` is `v` divided by `magnitude(v)`; for every vector of
nonzero magnitude the normalized vector has magnitude `1` (so fuzzy-equal to
`1`); the zero vector has magnitude `0` and is excluded by that
precondition — it cannot be normalized. -/
theorem normalize_spec (v : Vector) (h : v.magnitude ≠ 0) :
    v.normalize = v.div v.magnitude ∧
      fuzzyEq v.normalize.magnitude 1 ∧
      (Vector.new 0 0 0).magnitude = 0 := by
  refine ⟨rfl, ?_, ?_⟩
  · rw [normalize_magnitude v h]
    exact fuzzyEq_refl 1
  · simp [Vector.magnitude, Vector.new]

/-- Witness for C8 at `v = (3, 4, 0)`: its magnitude `√25 = 5` is nonzero,
and the theorem instantiates. -/
theorem normalize_spec_witness :
    (Vector.new 3 4 0).magnitude ≠ 0 ∧
      (Vector.new 3 4 0).normalize = (Vector.new 3 4 0).div (Vector.new 3 4 0).magnitude ∧
      fuzzyEq (Vector.new 3 4 0).normalize.magnitude 1 ∧
      (Vector.new 0 0 0).magnitude = 0 := by
  have h : (Vector.new 3 4 0).magnitude ≠ 0 := by
    have : (Vector.new 3 4 0).magnitude = 5 := by
      unfold Vector.magnitude Vector.new
      rw [show (3 : ℝ) * 3 + 4 * 4 + 0 * 0 = 5 ^ 2 by norm_num]
      exact Real.sqrt_sq (by norm_num)
    rw [this]; norm_num
  exact ⟨h, normalize_spec (Vector.new 3 4 0) h⟩

/-- Laplace expansion of the 4×4 determinant along any column, stated for
the source's first-row-expansion `det4` and `cofactor4`. -/
lemma col_expand4 (m : Matrix4) (i j : Fin 4) :
    (∑ k, cofactor4 m k i * m k j) = if i = j then det4 m else 0 := by
  fin_cases i <;> fin_cases j <;>
    simp [Fin.sum_univ_four, det4, cofactor4, minor4, det3, cofactor3, minor3, det2,
      submatrix4, submatrix3, skip4, skip3, Fin.sum_univ_three,
      fv40, fv41, fv42, fv43, fv30, fv31, fv32, fv20, fv21] <;>
    ring

/-- Laplace expansion of the 4×4 determinant along any row. -/
lemma row_expand4 (m : Matrix4) (i j : Fin 4) :
    (∑ k, m i k * cofactor4 m j k) = if i = j then det4 m else 0 := by
  fin_cases i <;> fin_cases j <;>
    simp [Fin.sum_univ_four, det4, cofactor4, minor4, det3, cofactor3, minor3, det2,
      submatrix4, submatrix3, skip4, skip3, Fin.sum_univ_three,
      fv40, fv41, fv42, fv43, fv30, fv31, fv32, fv20, fv21] <;>
    ring

/-- Laplace expansion of the 3×3 determinant along any column. -/
lemma col_expand3 (m : Matrix3) (i j : Fin 3) :
    (∑ k, cofactor3 m k i * m k j) = if i = j then det3 m else 0 := by
  fin_cases i <;> fin_cases j <;>
    simp [det3, cofactor3, minor3, det2, submatrix3, skip3, Fin.sum_univ_three,
      fv30, fv31, fv32, fv20, fv21] <;>
    ring

/-- Laplace expansion of the 3×3 determinant along any row. -/
lemma row_expand3 (m : Matrix3) (i j : Fin 3) :
    (∑ k, m i k * cofactor3 m j k) = if i = j then det3 m else 0 := by
  fin_cases i <;> fin_cases j <;>
    simp [det3, cofactor3, minor3, det2, submatrix3, skip3, Fin.sum_univ_three,
      fv30, fv31, fv32, fv20, fv21] <;>
    ring

/-- A fuzzily nonzero determinant is exactly nonzero. -/
lemma isInvertible4_det_ne (m : Matrix4) (h : isInvertible4 m) : det4 m ≠ 0 := by
  intro h0
  exact h (by simpa [fuzzyEq, h0] using epsilon_pos)

/-- A fuzzily nonzero 3×3 determinant is exactly nonzero. -/
lemma isInvertible3_det_ne (m : Matrix3) (h : isInvertible3 m) : det3 m ≠ 0 := by
  intro h0
  exact h (by simpa [fuzzyEq, h0] using epsilon_pos)

/-- With a nonzero determinant, `inverse * M` is exactly the identity. -/
lemma inverse4_mul (m : Matrix4) (h : det4 m ≠ 0) :
    matMul (inverse4 m) m = identityM 4 := by
  funext i j
  unfold matMul inverse4 identityM
  have : (∑ k, cofactor4 m k i / det4 m * m k j) =
      (∑ k, cofactor4 m k i * m k j) / det4 m := by
    rw [Finset.sum_div]
    refine Finset.sum_congr rfl ?_
    intro k _
    ring
  rw [this, col_expand4]
  by_cases hij : i = j <;> simp [hij, h]

/-- With a nonzero determinant, `M * inverse` is exactly the identity. -/
lemma mul_inverse4 (m : Matrix4) (h : det4 m ≠ 0) :
    matMul m (inverse4 m) = identityM 4 := by
  funext i j
  unfold matMul inverse4 identityM
  have : (∑ k, m i k * (cofactor4 m j k / det4 m)) =
      (∑ k, m i k * cofactor4 m j k) / det4 m := by
    rw [Finset.sum_div]
    refine Finset.sum_congr rfl ?_
    intro k _
    ring
  rw [this, row_expand4]
  by_cases hij : i = j <;> simp [hij, h]

/-- With a nonzero determinant, the 3×3 `inverse * M` is the identity. -/
lemma inverse3_mul (m : Matrix3) (h : det3 m ≠ 0) :
    matMul (inverse3 m) m = identityM 3 := by
  funext i j
  unfold matMul inverse3 identityM
  have : (∑ k, cofactor3 m k i / det3 m * m k j) =
      (∑ k, cofactor3 m k i * m k j) / det3 m := by
    rw [Finset.sum_div]
    refine Finset.sum_congr rfl ?_
    intro k _
    ring
  rw [this, col_expand3]
  by_cases hij : i = j <;> simp [hij, h]

/-- With a nonzero determinant, the 3×3 `M * inverse` is the identity. -/
lemma mul_inverse3 (m : Matrix3) (h : det3 m ≠ 0) :
    matMul m (inverse3 m) = identityM 3 := by
  funext i j
  unfold matMul inverse3 identityM
  have : (∑ k, m i k * (cofactor3 m j k / det3 m)) =
      (∑ k, m i k * cofactor3 m j k) / det3 m := by
    rw [Finset.sum_div]
    refine Finset.sum_congr rfl ?_
    intro k _
    ring
  rw [this, row_expand3]
  by_cases hij : i = j <;> simp [hij, h]

/-- C7: for every invertible matrix (4×4 and 3×3, the sizes for which the
source defines `inverse`), `M.inverse() * M` and `M * M.inverse()` are the
identity within epsilon — here they are even exactly the identity, so the
fuzzy comparison holds. -/
theorem inverse_composes_to_identity :
    (∀ m : Matrix4, isInvertible4 m →
        fuzzyEqM (matMul (inverse4 m) m) (identityM 4) ∧
          fuzzyEqM (matMul m (inverse4 m)) (identityM 4)) ∧
      ∀ m : Matrix3, isInvertible3 m →
        fuzzyEqM (matMul (inverse3 m) m) (identityM 3) ∧
          fuzzyEqM (matMul m (inverse3 m)) (identityM 3) := by
  constructor
  · intro m h
    have hd := isInvertible4_det_ne m h
    rw [inverse4_mul m hd, mul_inverse4 m hd]
    exact ⟨fuzzyEqM_refl _, fuzzyEqM_refl _⟩
  · intro m h
    have hd := isInvertible3_det_ne m h
    rw [inverse3_mul m hd, mul_inverse3 m hd]
    exact ⟨fuzzyEqM_refl _, fuzzyEqM_refl _⟩

/-- The determinant of the 4×4 identity matrix is `1`. -/
lemma det4_identity : det4 (identityM 4) = 1 := by
  simp [Fin.sum_univ_four, det4, cofactor4, minor4, det3, cofactor3, minor3, det2,
    submatrix4, submatrix3, skip4, skip3, Fin.sum_univ_three, identityM,
    fv40, fv41, fv42, fv43, fv30, fv31, fv32, fv20, fv21, Fin.ext_iff]

/-- The 4×4 identity matrix passes the invertibility check. -/
lemma isInvertible4_identity : isInvertible4 (identityM 4) := by
  unfold isInvertible4 fuzzyNe
  rw [det4_identity]
  norm_num [fuzzyEq, EPSILON]

/-- Witness for C7 at the 4×4 identity matrix. -/
theorem inverse_composes_to_identity_witness :
    isInvertible4 (identityM 4) ∧
      fuzzyEqM (matMul (inverse4 (identityM 4)) (identityM 4)) (identityM 4) ∧
      fuzzyEqM (matMul (identityM 4) (inverse4 (identityM 4))) (identityM 4) :=
  ⟨isInvertible4_identity,
    inverse_composes_to_identity.1 (identityM 4) isInvertible4_identity⟩

/-- C6: `Matrix::inverse` fails loudly (modelled as `none`) exactly when the
determinant is fuzzily zero, never substituting the identity silently; for
an invertible matrix it returns the matrix whose `(j, i)` entry is
`cofactor(i, j) / determinant`.  Stated for both sizes carrying `inverse`. -/
theorem inverse_fails_iff_singular :
    (∀ m : Matrix4,
        (inverseRes4 m = none ↔ ¬ isInvertible4 m) ∧
          (isInvertible4 m → inverseRes4 m = some (inverse4 m) ∧
            ∀ i j, inverse4 m j i = cofactor4 m i j / det4 m)) ∧
      ∀ m : Matrix3,
        (inverseRes3 m = none ↔ ¬ isInvertible3 m) ∧
          (isInvertible3 m → inverseRes3 m = some (inverse3 m) ∧
            ∀ i j, inverse3 m j i = cofactor3 m i j / det3 m) := by
  constructor
  · intro m
    unfold inverseRes4
    constructor
    · by_cases h : isInvertible4 m <;> simp [h]
    · intro h
      exact ⟨by simp [h], fun i j => rfl⟩
  · intro m
    unfold inverseRes3
    constructor
    · by_cases h : isInvertible3 m <;> simp [h]
    · intro h
      exact ⟨by simp [h], fun i j => rfl⟩

/-- The determinant of the all-zero 4×4 matrix is `0`. -/
lemma det4_default : det4 (defaultM 4) = 0 := by
  simp [Fin.sum_univ_four, det4, defaultM]

/-- Witness for C6: the identity matrix is invertible and inverts without
failing; the all-zero matrix fails the invertibility check and `inverse`
fails (panics) on it. -/
theorem inverse_fails_iff_singular_witness :
    (isInvertible4 (identityM 4) ∧
        inverseRes4 (identityM 4) = some (inverse4 (identityM 4))) ∧
      ¬ isInvertible4 (defaultM 4) ∧ inverseRes4 (defaultM 4) = none := by
  have hnot : ¬ isInvertible4 (defaultM 4) := by
    unfold isInvertible4 fuzzyNe
    rw [det4_default]
    simp [fuzzyEq, EPSILON]
    norm_num
  refine ⟨⟨isInvertible4_identity, ?_⟩, hnot, ?_⟩
  · exact ((inverse_fails_iff_singular.1 (identityM 4)).2 isInvertible4_identity).1
  · exact ((inverse_fails_iff_singular.1 (defaultM 4)).1).mpr hnot

/-- The sort comparator on intersections is transitive. -/
lemma tLe_trans : ∀ a b c : Intersection,
    tLe a b = true → tLe b c = true → tLe a c = true := by
  intro a b c hab hbc
  simp only [tLe, decide_eq_true_eq] at *
  exact le_trans hab hbc

/-- The sort comparator on intersections is total. -/
lemma tLe_total : ∀ a b : Intersection, (tLe a b || tLe b a) = true := by
  intro a b
  simpa [tLe] using le_total a.t b.t

/-- Conversion from construction always leaves the collection sorted
ascending by `t`. -/
lemma fromList_sorted (l : List Intersection) :
    (Intersections.fromList l).intersections.Pairwise (fun a b => a.t ≤ b.t) := by
  have h := List.sorted_mergeSort tLe_trans tLe_total l
  exact h.imp (fun hab => by simpa [tLe] using hab)

/-- Conversion from construction permutes, never drops or duplicates,
the input intersections. -/
lemma fromList_perm (l : List Intersection) :
    (Intersections.fromList l).intersections.Perm l :=
  List.mergeSort_perm l tLe

/-- A two-element list already in ascending order is returned unchanged by
the sorting construction. -/
lemma fromList_pair (a b : Intersection) (h : a.t ≤ b.t) :
    (Intersections.fromList [a, b]).intersections = [a, b] := by
  unfold Intersections.fromList
  exact List.mergeSort_of_sorted (by simp [List.pairwise_cons, tLe, h])

/-- C5 (amended): every `Intersections` value is sorted ascending by `t`
immediately after construction regardless of input order (and the stored
entries are exactly a permutation of the input), and `World::intersect` is
the concatenation of every body's intersections re-sorted ascending.  The
further clause of the claim — that no operation can leave a collection out
of sorted order — fails for the element assignment admitted by `IndexMut`;
see the counterexample. -/
theorem intersections_sorted_invariant :
    (∀ l : List Intersection,
        (Intersections.fromList l).intersections.Pairwise (fun a b => a.t ≤ b.t) ∧
          (Intersections.fromList l).intersections.Perm l) ∧
      ∀ (w : World) (r : Ray),
        w.intersect r =
            Intersections.fromList
              (w.bodies.flatMap fun b => (b.intersect r).intersections) ∧
          (w.intersect r).intersections.Pairwise (fun a b => a.t ≤ b.t) ∧
          (w.intersect r).intersections.Perm
            (w.bodies.flatMap fun b => (b.intersect r).intersections) := by
  refine ⟨fun l => ⟨fromList_sorted l, fromList_perm l⟩, fun w r => ⟨rfl, ?_, ?_⟩⟩
  · exact fromList_sorted _
  · exact fromList_perm _

/-- Counterexample for C5 as frozen: the element assignment available
through `IndexMut` (intersection.rs lines 94-98) is an operation on an
`Intersections` value that leaves a sorted collection out of sorted order:
overwriting index `0` of the sorted collection `[t=1, t=2]` with a `t=5`
entry produces `[t=5, t=2]`, which is not sorted. -/
theorem intersections_set_breaks_order :
    (Intersections.fromList [⟨1, ray0, body0⟩, ⟨2, ray0, body0⟩]).intersections.Pairwise
        (fun a b => a.t ≤ b.t) ∧
      ¬ ((Intersections.fromList [⟨1, ray0, body0⟩, ⟨2, ray0, body0⟩]).set 0
            ⟨5, ray0, body0⟩).intersections.Pairwise (fun a b => a.t ≤ b.t) := by
  have hpair := fromList_pair (⟨1, ray0, body0⟩ : Intersection) ⟨2, ray0, body0⟩
    (by norm_num)
  constructor
  · rw [hpair]
    simp [List.pairwise_cons]
  · unfold Intersections.set
    rw [hpair]
    simp [List.pairwise_cons]
    norm_num

/-- Witness for the amended C5 at a concrete out-of-order input list: the
construction sorts `[t=2, t=1]`. -/
theorem intersections_sorted_invariant_witness :
    (Intersections.fromList [⟨2, ray0, body0⟩, ⟨1, ray0, body0⟩]).intersections.Pairwise
        (fun a b => a.t ≤ b.t) ∧
      (Intersections.fromList [⟨2, ray0, body0⟩, ⟨1, ray0, body0⟩]).intersections.Perm
        [⟨2, ray0, body0⟩, ⟨1, ray0, body0⟩] :=
  intersections_sorted_invariant.1 [⟨2, ray0, body0⟩, ⟨1, ray0, body0⟩]

/-- Reflection is odd in its first argument on `w = 0` vectors (such as the
normalized light vector): reflecting the negated vector equals negating the
reflection, both being `-v + n * 2 * (v·n)`. -/
lemma reflect_neg (v n : Vector) (hv : v.w = 0) :
    Vector.reflect v.neg n = (Vector.reflect v n).neg := by
  unfold Vector.reflect Vector.neg Vector.smul Vector.sub Vector.dot Vector.new
  dsimp only
  simp only [Vector.mk.injEq, hv]
  refine ⟨by ring_nf, by ring_nf, by ring_nf, by ring_nf⟩

/-- Every scalar multiple (hence every normalization) has `w = 0`, because
`Vector::new` pins the fourth component. -/
lemma smul_w (v : Vector) (s : ℝ) : (v.smul s).w = 0 := rfl

/-- C3: the Phong lighting cases.  With `effective_color` the elementwise
product of material colour and light intensity and `ambient` its scaling by
the ambient coefficient: in shadow the result is ambient alone; otherwise,
with `light_vector` the normalized vector to the light and
`light_dot_normal` its dot with the normal, diffuse and specular are black
when `light_dot_normal < 0`; else diffuse is
`effective_color * diffuse * light_dot_normal` and, with `reflect_vector =
reflect(−light_vector, normal)` and `reflect_dot_eye` its dot with the eye,
specular is black when `reflect_dot_eye ≤ 0` and
`intensity * specular * reflect_dot_eye ^ shininess` otherwise; the result
is the unclamped componentwise sum `ambient + diffuse + specular`. -/
theorem phong_lighting_formula (m : Phong) (light : PointLight) (position : Point)
    (eyeVector normalVector : Vector) :
    let effectiveColor := m.color.mul light.intensity
    let ambient := effectiveColor.smul m.ambient
    let black := Color.new 0 0 0
    let lightVector := (light.position.sub position).normalize
    let lightDotNormal := lightVector.dot normalVector
    (m.lighting light position eyeVector normalVector ShadowState.shadow = ambient) ∧
      (lightDotNormal < 0 →
        m.lighting light position eyeVector normalVector ShadowState.clear =
          (ambient.add black).add black) ∧
      (0 ≤ lightDotNormal →
        let diffuse := (effectiveColor.smul m.diffuse).smul lightDotNormal
        let reflectVector := Vector.reflect lightVector.neg normalVector
        let reflectDotEye := reflectVector.dot eyeVector
        (reflectDotEye ≤ 0 →
          m.lighting light position eyeVector normalVector ShadowState.clear =
            (ambient.add diffuse).add black) ∧
        (0 < reflectDotEye →
          m.lighting light position eyeVector normalVector ShadowState.clear =
            (ambient.add diffuse).add
              ((light.intensity.smul m.specular).smul (reflectDotEye ^ m.shininess)))) := by
    refine ⟨rfl, ?_, ?_⟩
    · intro hneg
      unfold Phong.lighting
      simp only []
      rw [if_pos hneg]
    · intro hpos
      have hrv : ((((light.position.sub position).normalize).reflect normalVector).neg) =
          Vector.reflect ((light.position.sub position).normalize).neg normalVector :=
        (reflect_neg _ _ (smul_w _ _)).symm
      constructor
      · intro hre
        unfold Phong.lighting
        simp only []
        rw [if_neg (not_lt.mpr hpos)]
        rw [hrv] at *
        rw [if_pos hre]
      · intro hre
        unfold Phong.lighting
        simp only []
        rw [if_neg (not_lt.mpr hpos)]
        rw [hrv] at *
        rw [if_neg (not_le.mpr hre)]

/-- The vector from the test surface point to the test light normalizes to
`(0, 0, -1)`. -/
lemma light0_vector : (light0.position.sub pos0).normalize = Vector.new 0 0 (-1) := by
  have hm : (light0.position.sub pos0).magnitude = 10 := by
    unfold light0 pos0 Point.sub Point.new Vector.magnitude Vector.new
    dsimp only
    rw [show ((0:ℝ) - 0) * (0 - 0) + (0 - 0) * (0 - 0) + (-10 - 0) * (-10 - 0) = 10 ^ 2 by
      norm_num]
    exact Real.sqrt_sq (by norm_num)
  unfold Vector.normalize
  rw [hm]
  unfold light0 pos0 Point.sub Point.new Vector.div Vector.smul Vector.new
  dsimp only
  norm_num

/-- Witness for C3 at the default Phong material, the test light, the
origin surface point, and eye and normal both `(0, 0, -1)`: the light is
on the normal's side, the eye is in the reflection path, and the theorem's
fully lit branch instantiates. -/
theorem phong_lighting_formula_witness :
    let effectiveColor := phong0.color.mul light0.intensity
    let ambient := effectiveColor.smul phong0.ambient
    let lightVector := (light0.position.sub pos0).normalize
    let lightDotNormal := lightVector.dot nrm0
    let diffuse := (effectiveColor.smul phong0.diffuse).smul lightDotNormal
    let reflectVector := Vector.reflect lightVector.neg nrm0
    let reflectDotEye := reflectVector.dot eye0
    0 ≤ lightDotNormal ∧ 0 < reflectDotEye ∧
      phong0.lighting light0 pos0 eye0 nrm0 ShadowState.clear =
        (ambient.add diffuse).add
          ((light0.intensity.smul phong0.specular).smul
            (reflectDotEye ^ phong0.shininess)) := by
  dsimp only
  have h1 : (0:ℝ) ≤ ((light0.position.sub pos0).normalize).dot nrm0 := by
    rw [light0_vector]
    norm_num [Vector.dot, Vector.new, nrm0]
  have h2 : (0:ℝ) <
      (Vector.reflect ((light0.position.sub pos0).normalize).neg nrm0).dot eye0 := by
    rw [light0_vector]
    norm_num [Vector.reflect, Vector.neg, Vector.smul, Vector.sub, Vector.dot, Vector.new,
      nrm0, eye0]
  exact ⟨h1, h2, ((phong_lighting_formula phong0 light0 pos0 eye0 nrm0).2.2 h1).2 h2⟩

/-- A vector's dot product with itself is a sum of squares, hence
nonnegative (this is the quadratic's leading coefficient `a = D·D`). -/
lemma dot_self_nonneg (v : Vector) : 0 ≤ v.dot v := by
  have hx := mul_self_nonneg v.x
  have hy := mul_self_nonneg v.y
  have hz := mul_self_nonneg v.z
  have hw := mul_self_nonneg v.w
  unfold Vector.dot
  linarith

/-- With a nonnegative leading coefficient, the quadratic root using
`−√d` is at most the root using `+√d` (both are `0` in the degenerate
`a = 0` reading of real division). -/
lemma roots_ordered (a b d : ℝ) (ha : 0 ≤ a) :
    (-b - Real.sqrt d) / (2 * a) ≤ (-b + Real.sqrt d) / (2 * a) := by
  rcases eq_or_lt_of_le ha with h0 | hpos
  · rw [← h0, mul_zero, div_zero, div_zero]
  · have h2 : 0 < 2 * a := by linarith
    exact (div_le_div_iff_of_pos_right h2).mpr (by linarith [Real.sqrt_nonneg d])

/-- C1: for every sphere with an invertible transform and every ray,
`Sphere::intersect` transforms the ray by the inverse of the sphere's
transform and solves the unit-sphere quadratic with `a = D·D`,
`b = 2·D·(O−center)`, `c = (O−center)·(O−center) − 1`: a negative
discriminant yields the empty collection, and otherwise exactly two
intersections at `t = (−b ∓ √disc) / (2a)`, smaller root first; a tangent
ray (discriminant `0`) yields two equal `t` values, never a single one. -/
theorem sphere_intersect_quadratic (s : Sphere) (r : Ray)
    (_hinv : isInvertible4 s.transform) :
    let objectSpaceRay := r.transform (inverse4 s.transform)
    let sphereToRay := objectSpaceRay.origin.sub (Point.new 0 0 0)
    let a := objectSpaceRay.direction.dot objectSpaceRay.direction
    let b := 2 * objectSpaceRay.direction.dot sphereToRay
    let c := sphereToRay.dot sphereToRay - 1
    let descriminant := b * b - 4 * a * c
    (descriminant < 0 → (s.intersect r).intersections = []) ∧
      (0 ≤ descriminant →
        (s.intersect r).intersections =
          [⟨(-b - Real.sqrt descriminant) / (2 * a), r, Body.sphere s⟩,
           ⟨(-b + Real.sqrt descriminant) / (2 * a), r, Body.sphere s⟩] ∧
          (-b - Real.sqrt descriminant) / (2 * a) ≤
            (-b + Real.sqrt descriminant) / (2 * a)) ∧
      (descriminant = 0 →
        (-b - Real.sqrt descriminant) / (2 * a) =
          (-b + Real.sqrt descriminant) / (2 * a)) := by
  dsimp only
  refine ⟨?_, ?_, ?_⟩
  · intro h
    unfold Sphere.intersect
    rw [if_pos h]
    unfold Intersections.fromList
    exact List.mergeSort_nil
  · intro h
    refine ⟨?_, roots_ordered _ _ _ (dot_self_nonneg _)⟩
    unfold Sphere.intersect
    rw [if_neg (not_lt.mpr h)]
    exact fromList_pair _ _ (roots_ordered _ _ _ (dot_self_nonneg _))
  · intro h
    rw [h, Real.sqrt_zero]
    norm_num

/-- The 4×4 identity matrix is its own source-style inverse. -/
lemma inverse4_identity : inverse4 (identityM 4) = identityM 4 := by
  funext i j
  unfold inverse4
  rw [det4_identity]
  fin_cases i <;> fin_cases j <;>
    simp [cofactor4, minor4, det3, cofactor3, minor3, det2, submatrix4, submatrix3,
      skip4, skip3, Fin.sum_univ_three, identityM, Fin.ext_iff,
      fv40, fv41, fv42, fv43, fv30, fv31, fv32, fv20, fv21]

/-- Transforming a ray by the identity matrix returns the ray. -/
lemma transform_identity (r : Ray) : r.transform (identityM 4) = r := by
  obtain ⟨⟨ox, oy, oz, ow⟩, ⟨dx, dy, dz, dw⟩⟩ := r
  unfold Ray.transform mulPoint mulVec identityM
  simp [Fin.ext_iff, fv40, fv41, fv42, fv43]

/-- Evaluation of `√4`. -/
lemma sqrt_four : Real.sqrt 4 = 2 := by
  rw [show (4:ℝ) = 2 ^ 2 by norm_num]
  exact Real.sqrt_sq (by norm_num)

/-- Concrete evaluation of the default sphere against the test ray from
`(0,0,-5)` along `+z`: intersections at `t = 4` and `t = 6` (the source's
`a_ray_intersects_a_sphere_at_two_points` test). -/
lemma sphere0_intersect_eval :
    (sphere0.intersect ray0).intersections = [⟨4, ray0, body0⟩, ⟨6, ray0, body0⟩] := by
  have h1 : ray0.transform (inverse4 sphere0.transform) = ray0 := by
    rw [show sphere0.transform = identityM 4 from rfl, inverse4_identity,
      transform_identity]
  simp only [Sphere.intersect, h1]
  have hstr : ray0.origin.sub (Point.new 0 0 0) = Vector.new 0 0 (-5) := by
    norm_num [ray0, Point.sub, Point.new, Vector.new]
  have ha : ray0.direction.dot ray0.direction = 1 := by
    norm_num [ray0, Vector.dot, Vector.new]
  have hb : ray0.direction.dot (Vector.new 0 0 (-5)) = -5 := by
    norm_num [ray0, Vector.dot, Vector.new]
  have hc : (Vector.new 0 0 (-5)).dot (Vector.new 0 0 (-5)) = 25 := by
    norm_num [Vector.dot, Vector.new]
  rw [hstr, ha, hb, hc]
  rw [if_neg (by norm_num)]
  rw [show (2 * -5 * (2 * -5) - 4 * 1 * (25 - 1) : ℝ) = 4 by norm_num]
  rw [sqrt_four]
  rw [show (-(2 * -5) - 2) / (2 * 1) = (4:ℝ) by norm_num,
    show (-(2 * -5) + 2) / (2 * 1) = (6:ℝ) by norm_num]
  exact fromList_pair _ _ (by norm_num)

/-- Witness for C1 at the default sphere (identity transform, hence
invertible) and the test ray: the theorem instantiates. -/
theorem sphere_intersect_quadratic_witness :
    isInvertible4 sphere0.transform ∧
      (let objectSpaceRay := ray0.transform (inverse4 sphere0.transform)
       let sphereToRay := objectSpaceRay.origin.sub (Point.new 0 0 0)
       let a := objectSpaceRay.direction.dot objectSpaceRay.direction
       let b := 2 * objectSpaceRay.direction.dot sphereToRay
       let c := sphereToRay.dot sphereToRay - 1
       let descriminant := b * b - 4 * a * c
       (descriminant < 0 → (sphere0.intersect ray0).intersections = []) ∧
         (0 ≤ descriminant →
           (sphere0.intersect ray0).intersections =
             [⟨(-b - Real.sqrt descriminant) / (2 * a), ray0, Body.sphere sphere0⟩,
              ⟨(-b + Real.sqrt descriminant) / (2 * a), ray0, Body.sphere sphere0⟩] ∧
             (-b - Real.sqrt descriminant) / (2 * a) ≤
               (-b + Real.sqrt descriminant) / (2 * a)) ∧
         (descriminant = 0 →
           (-b - Real.sqrt descriminant) / (2 * a) =
             (-b + Real.sqrt descriminant) / (2 * a))) := by
  have hi : isInvertible4 sphere0.transform := isInvertible4_identity
  exact ⟨hi, sphere_intersect_quadratic sphere0 ray0 hi⟩

/-- C4: for every world whose lights list starts with `l` and every ray,
`World::color_at` returns black when there is no hit; on a hit it returns
the lighting of the hit body's material at the hit's computed position, eye
vector and normal vector, consulting exactly the first light `l` with a
`Clear` shadow state (no shadow testing); and the additional lights are
silently ignored — replacing the lights list by `[l]` leaves the result
unchanged. -/
theorem world_color_at_single_light (w : World) (r : Ray) (l : PointLight)
    (ls : List PointLight) (hl : w.lights = l :: ls) :
    ((w.intersect r).hit = none → w.colorAt r = some (Color.new 0 0 0)) ∧
      (∀ hi, (w.intersect r).hit = some hi →
        w.colorAt r =
          some (hi.body.material.lighting l hi.computed.position hi.computed.eye
            hi.computed.normal ShadowState.clear)) ∧
      w.colorAt r = World.colorAt ⟨w.bodies, [l]⟩ r := by
  have hbodies : World.intersect ⟨w.bodies, [l]⟩ r = w.intersect r := rfl
  refine ⟨?_, ?_, ?_⟩
  · intro h
    unfold World.colorAt
    rw [h]
  · intro hi h
    unfold World.colorAt
    rw [h, hl]
  · unfold World.colorAt
    rw [hbodies]
    cases hhit : (w.intersect r).hit with
    | none => rfl
    | some hi => rw [hl]

/-- Witness for C4 at a world with no bodies and a single light: there is
no hit and `color_at` returns black. -/
theorem world_color_at_single_light_witness :
    worldOneLight.lights = light0 :: [] ∧
      worldOneLight.colorAt ray0 = some (Color.new 0 0 0) := by
  have hhit : (worldOneLight.intersect ray0).hit = none := by
    unfold worldOneLight World.intersect Intersections.fromList Intersections.hit
    simp [List.mergeSort_nil]
  exact ⟨rfl,
    (world_color_at_single_light worldOneLight ray0 light0 [] rfl).1 hhit⟩

/-- C10: `World::color_at` with an empty lights list panics (modelled as
`none`) for every ray whose intersections contain a hit; for a ray with no
hit it returns black without consulting the lights; and with at least one
light the lookup never fails. -/
theorem world_color_at_empty_lights (w : World) (r : Ray) :
    (w.lights = [] → ∀ hi, (w.intersect r).hit = some hi → w.colorAt r = none) ∧
      ((w.intersect r).hit = none → w.colorAt r = some (Color.new 0 0 0)) ∧
      (w.lights ≠ [] → ∃ c, w.colorAt r = some c) := by
  refine ⟨?_, ?_, ?_⟩
  · intro hl hi h
    unfold World.colorAt
    rw [h, hl]
  · intro h
    unfold World.colorAt
    rw [h]
  · intro hl
    unfold World.colorAt
    cases hhit : (w.intersect r).hit with
    | none => exact ⟨Color.new 0 0 0, rfl⟩
    | some hi =>
      cases hw : w.lights with
      | nil => exact absurd hw hl
      | cons l ls => exact ⟨_, rfl⟩

/-- The body-wrapped default sphere intersects the test ray at `t = 4` and
`t = 6`; packaged at the `World` level for the no-lights world. -/
lemma worldNoLights_hit :
    (worldNoLights.intersect ray0).hit = some ⟨4, ray0, body0⟩ := by
  have hb : (body0.intersect ray0).intersections = [⟨4, ray0, body0⟩, ⟨6, ray0, body0⟩] :=
    sphere0_intersect_eval
  have hflat : worldNoLights.bodies.flatMap (fun b => (b.intersect ray0).intersections) =
      [⟨4, ray0, body0⟩, ⟨6, ray0, body0⟩] := by
    show (body0.intersect ray0).intersections ++ [] = _
    rw [hb]
    rfl
  unfold World.intersect
  rw [hflat]
  unfold Intersections.hit
  rw [fromList_pair _ _ (by norm_num)]
  rw [List.find?_cons_of_pos _ (by norm_num)]

/-- Witness for C10 at the world holding the default sphere and no lights,
with the test ray that hits at `t = 4`: `color_at` fails. -/
theorem world_color_at_empty_lights_witness :
    worldNoLights.lights = [] ∧ worldNoLights.colorAt ray0 = none :=
  ⟨rfl, (world_color_at_empty_lights worldNoLights ray0).1 rfl ⟨4, ray0, body0⟩
    worldNoLights_hit⟩

end

end RayTracer
